import Mathlib

/-!
Verification of `postal.js` (my-covid-story/postal-data).

This file gives a shallow embedding, in Lean 4, of the pure core of
`postal.js`: the FSA-to-province resolver, the HTML-cell line
normalization `dataLines`, the per-cell FSA record extraction in
`fsaScrapeFrom` (including rural LDU line parsing), the LDU pool
generator `lduGenerate`, the MPP name derivation of `edMppEnrich`, and
the resumable retrying search loop `fsaEdSearchFor`.

Modelling conventions:
* JavaScript strings are `String`/`List Char`; `undefined` results of
  JS expressions are `Option.none`; a JS `TypeError` crash (calling a
  method on `undefined`) makes the embedding of the enclosing function
  return `none` / propagate failure.
* Network lookups are oracles `String → Except ε α`; `delay` and the
  HTTP request of each attempt are recorded in an explicit event trace
  where timing matters.
* `cheerio.load(html).text()` is modelled as tag stripping (the
  concatenated text of the markup); HTML entity decoding is not
  modelled.  `array-shuffle` is modelled as an arbitrary function that
  permutes its input (the library's contract).
* JS `String.prototype.trim` is modelled over the whitespace characters
  space, tab, CR, LF (`Char.isWhitespace`).
-/

/-! ## Province Resolver (`fsaProvince`, postal.js lines 39-65) -/

/-- Entries of the `LETTER_PROVINCE` table: either a plain province
code or a disambiguation function taking the full FSA (the JS table
mixes strings and a function, dispatched on `typeof`). -/
inductive ProvinceEntry where
  | direct (code : String)
  | disamb (f : String → String)

/-- The `X` entry of the table:
`(fsa) => (['X0A', 'X0B', 'X0C'].includes(fsa) ? 'NU' : 'NT')`. -/
def xDisamb (fsa : String) : String :=
  if fsa ∈ (["X0A", "X0B", "X0C"] : List String) then "NU" else "NT"

/-- The `LETTER_PROVINCE` object of postal.js, keyed by the first
character of the FSA. -/
def LETTER_PROVINCE : List (Char × ProvinceEntry) :=
  [('A', .direct "NL"), ('B', .direct "NS"), ('C', .direct "PE"),
   ('E', .direct "NB"), ('G', .direct "QC"), ('H', .direct "QC"),
   ('J', .direct "QC"), ('K', .direct "ON"), ('L', .direct "ON"),
   ('M', .direct "ON"), ('N', .direct "ON"), ('P', .direct "ON"),
   ('R', .direct "MB"), ('S', .direct "SK"), ('T', .direct "AB"),
   ('V', .direct "BC"), ('X', .disamb xDisamb), ('Y', .direct "YT")]

/-- `LETTERS = Object.keys(LETTER_PROVINCE)`. -/
def LETTERS : List Char := LETTER_PROVINCE.map Prod.fst

/-- The fixed set of two-letter province/territory codes that the
resolver can produce. -/
def provinceCodes : List String :=
  ["NL", "NS", "PE", "NB", "QC", "ON", "MB", "SK", "AB", "BC", "NU", "NT", "YT"]

/-- `fsaProvince` of postal.js: look up the first character in
`LETTER_PROVINCE`; a function entry is applied to the full FSA.  A
first character outside the table gives JS `undefined`, modelled as
`none` (`fsa.charAt(0)` of the empty string is `""`, also outside the
table). -/
def fsaProvince (fsa : String) : Option String :=
  match fsa.data.head? with
  | none => none
  | some c =>
    match LETTER_PROVINCE.lookup c with
    | none => none
    | some (.direct p) => some p
    | some (.disamb f) => some (f fsa)

/-- C4: the Province Resolver is total over 3-character FSAs whose
first letter is in the fixed valid leading-letter set and always
returns one of the fixed two-letter province/territory codes; for
first letter `X` it returns `NU` exactly on `X0A`, `X0B`, `X0C` and
`NT` on every other FSA starting with `X`. -/
theorem c4_fsaProvince_total_on_valid (fsa : String) (c : Char)
    (_hlen : fsa.length = 3) (hc : fsa.data.head? = some c)
    (hmem : c ∈ LETTERS) :
    (∃ p, fsaProvince fsa = some p ∧ p ∈ provinceCodes) ∧
    (c = 'X' →
      ((fsaProvince fsa = some "NU" ↔ fsa ∈ (["X0A", "X0B", "X0C"] : List String)) ∧
       (fsa ∉ (["X0A", "X0B", "X0C"] : List String) → fsaProvince fsa = some "NT"))) := by
  simp only [LETTERS, LETTER_PROVINCE, List.map_cons, List.map_nil, List.mem_cons,
    List.not_mem_nil, or_false] at hmem
  rcases hmem with h | h | h | h | h | h | h | h | h | h | h | h | h | h | h | h | h | h <;>
    subst h <;>
    first
    | exact ⟨⟨_, by unfold fsaProvince; rw [hc]; rfl, by decide⟩,
        fun hx => absurd hx (by decide)⟩
    | · have hx : fsaProvince fsa = some (xDisamb fsa) := by
          unfold fsaProvince
          rw [hc]
          rfl
        refine ⟨?_, ?_⟩
        · by_cases hm : fsa ∈ (["X0A", "X0B", "X0C"] : List String)
          · exact ⟨"NU", by rw [hx]; unfold xDisamb; rw [if_pos hm], by decide⟩
          · exact ⟨"NT", by rw [hx]; unfold xDisamb; rw [if_neg hm], by decide⟩
        · intro _
          constructor
          · constructor
            · intro heq
              by_contra hm
              rw [hx] at heq
              unfold xDisamb at heq
              rw [if_neg hm] at heq
              exact absurd (Option.some.inj heq) (by decide)
            · intro hm
              rw [hx]
              unfold xDisamb
              rw [if_pos hm]
          · intro hm
            rw [hx]
            unfold xDisamb
            rw [if_neg hm]

/-- Witness for C4 at the concrete FSA `X0A`. -/
theorem c4_fsaProvince_total_on_valid_witness :
    (∃ p, fsaProvince "X0A" = some p ∧ p ∈ provinceCodes) ∧
    fsaProvince "X0A" = some "NU" := by
  have h := c4_fsaProvince_total_on_valid "X0A" 'X' (by decide) (by decide) (by decide)
  exact ⟨h.1, (h.2 rfl).1.mpr (by decide)⟩

/-- A key absent from the key column of an association list is not
found by `List.lookup`. -/
theorem lookup_eq_none_of_not_mem_keys {β : Type} (c : Char) :
    ∀ l : List (Char × β), c ∉ l.map Prod.fst → l.lookup c = none := by
  intro l
  induction l with
  | nil => intro _; rfl
  | cons kv t ih =>
    intro h
    simp only [List.map_cons, List.mem_cons, not_or] at h
    have hne : (c == kv.fst) = false := beq_eq_false_iff_ne.mpr h.1
    calc (kv :: t).lookup c = t.lookup c := by
          cases kv with
          | mk k v => simp only [List.lookup]
                      rw [show (c == k) = false from hne]
      _ = none := ih h.2

/-- C9: on a 3-character FSA whose first letter is outside the fixed
valid leading-letter set, the Province Resolver produces no province
code at all: the JS function returns `undefined` (modelled `none`), a
programmer-error sentinel, and in particular never a province code or
any other string value. -/
theorem c9_fsaProvince_invalid_letter_fails (fsa : String) (c : Char)
    (_hlen : fsa.length = 3) (hc : fsa.data.head? = some c)
    (hmem : c ∉ LETTERS) :
    fsaProvince fsa = none ∧ ∀ p : String, fsaProvince fsa ≠ some p := by
  have hlook : LETTER_PROVINCE.lookup c = none :=
    lookup_eq_none_of_not_mem_keys c LETTER_PROVINCE hmem
  have hmain : fsaProvince fsa = none := by
    unfold fsaProvince
    rw [hc]
    show (match LETTER_PROVINCE.lookup c with
      | none => none
      | some (ProvinceEntry.direct p) => some p
      | some (ProvinceEntry.disamb f) => some (f fsa)) = none
    rw [hlook]
  refine ⟨hmain, fun p h => ?_⟩
  rw [hmain] at h
  exact Option.noConfusion h

/-- Witness for C9 at the concrete (letter-digit-letter shaped) string
`Z1A`: `Z` is not a valid FSA leading letter. -/
theorem c9_fsaProvince_invalid_letter_fails_witness :
    fsaProvince "Z1A" = none :=
  (c9_fsaProvince_invalid_letter_fails "Z1A" 'Z' (by decide) (by decide)
    (by decide)).1

/-! ## LDU pool generation (`lduGenerate`, postal.js lines 307-325) -/

/-- `'ABCEGHJKLMNPRSTVWXYZ'.split('')` of `lduGenerate`. -/
def lduLetters : List Char := "ABCEGHJKLMNPRSTVWXYZ".data

/-- `'0123456789'.split('')` of `lduGenerate`. -/
def lduDigits : List Char := "0123456789".data

/-- The triple loop of `lduGenerate` before shuffling: for each digit
`d1`, letter `l`, digit `d2`, push the 3-character code `d1 + l + d2`. -/
def lduGenerateRaw : List String :=
  lduDigits.flatMap fun d1 =>
    lduLetters.flatMap fun l =>
      lduDigits.map fun d2 => String.mk [d1, l, d2]

/-- `lduGenerate`: the raw pool passed through `array-shuffle`,
modelled as an arbitrary function `shuffleFn` (the library's contract
is that it returns a permutation of its input). -/
def lduGenerate (shuffleFn : List String → List String) : List String :=
  shuffleFn lduGenerateRaw

/-- Membership in the raw LDU pool is exactly the digit-letter-digit
shape over the generator's character sets. -/
theorem lduGenerateRaw_mem (s : String) :
    s ∈ lduGenerateRaw ↔
      ∃ d1 ∈ lduDigits, ∃ l ∈ lduLetters, ∃ d2 ∈ lduDigits,
        s = String.mk [d1, l, d2] := by
  simp only [lduGenerateRaw, List.mem_flatMap, List.mem_map]
  constructor
  · rintro ⟨d1, hd1, l, hl, d2, hd2, rfl⟩
    exact ⟨d1, hd1, l, hl, d2, hd2, rfl⟩
  · rintro ⟨d1, hd1, l, hl, d2, hd2, rfl⟩
    exact ⟨d1, hd1, l, hl, d2, hd2, rfl⟩

/-- The raw LDU pool has no duplicates: the three generating character
positions determine the string. -/
theorem lduGenerateRaw_nodup : lduGenerateRaw.Nodup := by
  unfold lduGenerateRaw
  rw [List.nodup_flatMap]
  constructor
  · intro d1 _
    rw [List.nodup_flatMap]
    constructor
    · intro l _
      refine List.Nodup.map ?_ (by decide : lduDigits.Nodup)
      intro a b hab
      have := congrArg String.data hab
      simp only [String.data] at this
      exact (List.cons.injEq _ _ _ _).mp
        ((List.cons.injEq _ _ _ _).mp ((List.cons.injEq _ _ _ _).mp this).2).2 |>.1
    · refine List.Pairwise.imp ?_ (by decide : lduLetters.Nodup)
      intro l1 l2 hne s hs1 hs2
      simp only [List.mem_map] at hs1 hs2
      rcases hs1 with ⟨d2, _, h1⟩
      rcases hs2 with ⟨d2', _, h2⟩
      have := congrArg String.data (h1.trans h2.symm)
      simp only [String.data] at this
      exact hne ((List.cons.injEq _ _ _ _).mp ((List.cons.injEq _ _ _ _).mp this).2).1
  · refine List.Pairwise.imp ?_ (by decide : lduDigits.Nodup)
    intro a b hne s hs1 hs2
    simp only [List.mem_flatMap, List.mem_map] at hs1 hs2
    rcases hs1 with ⟨l1, _, d2, _, h1⟩
    rcases hs2 with ⟨l2, _, d2', _, h2⟩
    have := congrArg String.data (h1.trans h2.symm)
    simp only [String.data] at this
    exact hne ((List.cons.injEq _ _ _ _).mp this).1

set_option maxRecDepth 40000 in
/-- C7 counterexample: with the identity permutation as the shuffle,
the generated pool has 2,000 codes (10 digits x 20 letters x 10
digits), not 1,800 as claimed. -/
theorem c7_counterexample :
    (lduGenerate (fun l => l)).length = 2000 ∧ (2000 : Nat) ≠ 1800 :=
  ⟨by rfl, by decide⟩

set_option maxRecDepth 40000 in
/-- C7 (amended): the LDU pool produced by `lduGenerate` is a
permutation of the full combinatorial space of the 2,000 distinct
3-character codes of shape digit-letter-digit, where the letter ranges
over the 20 valid letters (the alphabet excluding D, F, I, O, Q, U):
every such code appears exactly once in the generated sequence and no
other string appears. -/
theorem c7_amended_pool_permutation (shuffleFn : List String → List String)
    (hs : ∀ l : List String, (shuffleFn l).Perm l) :
    (∀ s : String, s ∈ lduGenerate shuffleFn ↔
      ∃ d1 ∈ lduDigits, ∃ l ∈ lduLetters, ∃ d2 ∈ lduDigits,
        s = String.mk [d1, l, d2]) ∧
    (lduGenerate shuffleFn).Nodup ∧
    (lduGenerate shuffleFn).length = 2000 ∧
    lduLetters = "ABCDEFGHIJKLMNOPQRSTUVWXYZ".data.filter
      (fun c => !(['D', 'F', 'I', 'O', 'Q', 'U'] : List Char).contains c) := by
  have hperm : (lduGenerate shuffleFn).Perm lduGenerateRaw := hs lduGenerateRaw
  refine ⟨?_, ?_, ?_, by decide⟩
  · intro s
    rw [hperm.mem_iff]
    exact lduGenerateRaw_mem s
  · exact hperm.nodup_iff.mpr lduGenerateRaw_nodup
  · rw [hperm.length_eq]
    rfl

/-- Witness for C7 (amended) with the identity shuffle. -/
theorem c7_amended_pool_permutation_witness :
    (lduGenerate (fun l => l)).Nodup ∧ "0A0" ∈ lduGenerate (fun l => l) := by
  have h := c7_amended_pool_permutation (fun l => l) (fun l => List.Perm.refl l)
  exact ⟨h.2.1, (h.1 "0A0").mpr ⟨'0', by decide, 'A', by decide, '0', by decide, rfl⟩⟩

/-! ## FSA-ED Search Engine (`fsaEdSearchFor`, postal.js lines 416-463) -/

/-- One entry of a per-FSA search result set:
`{ postal, result }` where `result` is the opaque API payload. -/
structure SearchEntry (α : Type) where
  postal : String
  result : α
deriving DecidableEq

/-- The lookup loop of `fsaEdSearchFor`, over the candidate LDUs, with
the accumulating `results` array as explicit state.  `lookupE` is the
(already retried) network lookup of one postal code, an oracle that
either returns a payload or fails fatally.  The value is a triple:
* first, the final `results` array: this is exactly what the
  `finally` block writes to the per-FSA file, on success and on error
  alike;
* second, the ordered list of postal codes for which an external
  lookup was issued (the loop body behind the `!existing` check);
* third, `ok` for normal completion or the propagated fatal error of
  the `throw err` path. -/
def fsaEdSearchGo {ε α : Type} (lookupE : String → Except ε α) (fsa : String) :
    List String → List (SearchEntry α) →
    List (SearchEntry α) × List String × Except ε Unit
  | [], results => (results, [], Except.ok ())
  | ldu :: rest, results =>
    let postal := fsa ++ ldu
    if (results.find? fun r => r.postal == postal).isSome then
      fsaEdSearchGo lookupE fsa rest results
    else
      match lookupE postal with
      | Except.error e => (results, [postal], Except.error e)
      | Except.ok a =>
        let next := fsaEdSearchGo lookupE fsa rest (results ++ [⟨postal, a⟩])
        (next.1, postal :: next.2.1, next.2.2)

/-- `fsaEdSearchFor fsa ldus` with `existing` the result set loaded
from the per-FSA file of a prior run (empty when none exists). -/
def fsaEdSearchFor {ε α : Type} (lookupE : String → Except ε α) (fsa : String)
    (ldus : List String) (existing : List (SearchEntry α)) :
    List (SearchEntry α) × List String × Except ε Unit :=
  fsaEdSearchGo lookupE fsa ldus existing

/-- The `results.find((r) => r.postal === postal)` check succeeds
exactly when the postal code is already in the accumulated set. -/
theorem find?_postal_isSome {α : Type} (results : List (SearchEntry α)) (p : String) :
    ((results.find? fun r => r.postal == p).isSome : Prop) ↔
      p ∈ results.map SearchEntry.postal := by
  rw [List.find?_isSome]
  simp [List.mem_map, beq_iff_eq]

/-- Whatever happens, the final results array extends the loaded one,
and every appended entry is a successful lookup of a candidate postal
code. -/
theorem fsaEdSearchGo_written {ε α : Type} (lookupE : String → Except ε α)
    (fsa : String) :
    ∀ (ldus : List String) (results : List (SearchEntry α)),
      ∃ app, (fsaEdSearchGo lookupE fsa ldus results).1 = results ++ app ∧
        ∀ x ∈ app, lookupE x.postal = Except.ok x.result ∧
          ∃ l ∈ ldus, x.postal = fsa ++ l := by
  intro ldus
  induction ldus with
  | nil =>
    intro results
    exact ⟨[], by simp [fsaEdSearchGo], by simp⟩
  | cons ldu rest ih =>
    intro results
    by_cases hf : ((results.find? fun r => r.postal == fsa ++ ldu).isSome : Prop)
    · rcases ih results with ⟨app, h1, h2⟩
      refine ⟨app, ?_, ?_⟩
      · rw [show (fsaEdSearchGo lookupE fsa (ldu :: rest) results).1
            = (fsaEdSearchGo lookupE fsa rest results).1 by
          simp [fsaEdSearchGo, hf]]
        exact h1
      · intro x hx
        obtain ⟨hx1, l, hl, he⟩ := h2 x hx
        exact ⟨hx1, l, List.mem_cons_of_mem _ hl, he⟩
    · cases he : lookupE (fsa ++ ldu) with
      | error e =>
        refine ⟨[], ?_, by simp⟩
        rw [show (fsaEdSearchGo lookupE fsa (ldu :: rest) results).1 = results by
          simp [fsaEdSearchGo, hf, he]]
        simp
      | ok a =>
        rcases ih (results ++ [⟨fsa ++ ldu, a⟩]) with ⟨app, h1, h2⟩
        refine ⟨⟨fsa ++ ldu, a⟩ :: app, ?_, ?_⟩
        · rw [show (fsaEdSearchGo lookupE fsa (ldu :: rest) results).1
              = (fsaEdSearchGo lookupE fsa rest (results ++ [⟨fsa ++ ldu, a⟩])).1 by
            simp [fsaEdSearchGo, hf, he]]
          rw [h1]
          simp
        · intro x hx
          rcases List.mem_cons.mp hx with rfl | hx'
          · exact ⟨he, ldu, List.mem_cons_self _ _, rfl⟩
          · obtain ⟨hx1, l, hl, he2⟩ := h2 x hx'
            exact ⟨hx1, l, List.mem_cons_of_mem _ hl, he2⟩

/-- A fatal outcome is the error of an actual lookup of one of the
candidate postal codes. -/
theorem fsaEdSearchGo_error {ε α : Type} (lookupE : String → Except ε α)
    (fsa : String) :
    ∀ (ldus : List String) (results : List (SearchEntry α)) (e : ε),
      (fsaEdSearchGo lookupE fsa ldus results).2.2 = Except.error e →
      ∃ q, (∃ l ∈ ldus, q = fsa ++ l) ∧ lookupE q = Except.error e := by
  intro ldus
  induction ldus with
  | nil =>
    intro results e h
    simp [fsaEdSearchGo] at h
  | cons ldu rest ih =>
    intro results e h
    by_cases hf : ((results.find? fun r => r.postal == fsa ++ ldu).isSome : Prop)
    · rw [show (fsaEdSearchGo lookupE fsa (ldu :: rest) results).2.2
          = (fsaEdSearchGo lookupE fsa rest results).2.2 by
        simp [fsaEdSearchGo, hf]] at h
      obtain ⟨q, ⟨l, hl, hq⟩, he⟩ := ih results e h
      exact ⟨q, ⟨l, List.mem_cons_of_mem _ hl, hq⟩, he⟩
    · cases he : lookupE (fsa ++ ldu) with
      | error e' =>
        rw [show (fsaEdSearchGo lookupE fsa (ldu :: rest) results).2.2
            = Except.error e' by simp [fsaEdSearchGo, hf, he]] at h
        cases h
        exact ⟨fsa ++ ldu, ⟨ldu, List.mem_cons_self _ _, rfl⟩, he⟩
      | ok a =>
        rw [show (fsaEdSearchGo lookupE fsa (ldu :: rest) results).2.2
            = (fsaEdSearchGo lookupE fsa rest (results ++ [⟨fsa ++ ldu, a⟩])).2.2 by
          simp [fsaEdSearchGo, hf, he]] at h
        obtain ⟨q, ⟨l, hl, hq⟩, he2⟩ := ih _ e h
        exact ⟨q, ⟨l, List.mem_cons_of_mem _ hl, hq⟩, he2⟩

/-- On a successful run, the issued lookups are exactly one per
candidate postal code not already present, in candidate order, and the
final result set's postal column is the loaded column followed by the
issued codes. -/
theorem fsaEdSearchGo_ok_spec {ε α : Type} (lookupE : String → Except ε α)
    (fsa : String) :
    ∀ (ldus : List String) (results : List (SearchEntry α)),
      (fsaEdSearchGo lookupE fsa ldus results).2.2 = Except.ok () →
      ((fsaEdSearchGo lookupE fsa ldus results).1.map SearchEntry.postal
          = results.map SearchEntry.postal
            ++ (fsaEdSearchGo lookupE fsa ldus results).2.1) ∧
      (fsaEdSearchGo lookupE fsa ldus results).2.1.Nodup ∧
      (∀ q, q ∈ (fsaEdSearchGo lookupE fsa ldus results).2.1 ↔
        ((∃ l ∈ ldus, q = fsa ++ l) ∧ q ∉ results.map SearchEntry.postal)) := by
  intro ldus
  induction ldus with
  | nil =>
    intro results _
    refine ⟨by simp [fsaEdSearchGo], by simp [fsaEdSearchGo], ?_⟩
    intro q
    simp [fsaEdSearchGo]
  | cons ldu rest ih =>
    intro results hok
    by_cases hf : ((results.find? fun r => r.postal == fsa ++ ldu).isSome : Prop)
    · have hmem : fsa ++ ldu ∈ results.map SearchEntry.postal :=
        (find?_postal_isSome results (fsa ++ ldu)).mp hf
      have hunf : fsaEdSearchGo lookupE fsa (ldu :: rest) results
          = fsaEdSearchGo lookupE fsa rest results := by
        simp [fsaEdSearchGo, hf]
      rw [hunf] at hok ⊢
      obtain ⟨h1, h2, h3⟩ := ih results hok
      refine ⟨h1, h2, ?_⟩
      intro q
      rw [h3 q]
      constructor
      · rintro ⟨⟨l, hl, rfl⟩, hnot⟩
        exact ⟨⟨l, List.mem_cons_of_mem _ hl, rfl⟩, hnot⟩
      · rintro ⟨⟨l, hl, rfl⟩, hnot⟩
        rcases List.mem_cons.mp hl with rfl | hl'
        · exact absurd hmem hnot
        · exact ⟨⟨l, hl', rfl⟩, hnot⟩
    · have hnmem : fsa ++ ldu ∉ results.map SearchEntry.postal :=
        fun hmem => hf ((find?_postal_isSome results (fsa ++ ldu)).mpr hmem)
      cases he : lookupE (fsa ++ ldu) with
      | error e =>
        rw [show (fsaEdSearchGo lookupE fsa (ldu :: rest) results).2.2
            = Except.error e by simp [fsaEdSearchGo, hf, he]] at hok
        cases hok
      | ok a =>
        have hunf1 : (fsaEdSearchGo lookupE fsa (ldu :: rest) results).1
            = (fsaEdSearchGo lookupE fsa rest (results ++ [⟨fsa ++ ldu, a⟩])).1 := by
          simp [fsaEdSearchGo, hf, he]
        have hunf2 : (fsaEdSearchGo lookupE fsa (ldu :: rest) results).2.1
            = (fsa ++ ldu)
              :: (fsaEdSearchGo lookupE fsa rest (results ++ [⟨fsa ++ ldu, a⟩])).2.1 := by
          simp [fsaEdSearchGo, hf, he]
        have hunf3 : (fsaEdSearchGo lookupE fsa (ldu :: rest) results).2.2
            = (fsaEdSearchGo lookupE fsa rest (results ++ [⟨fsa ++ ldu, a⟩])).2.2 := by
          simp [fsaEdSearchGo, hf, he]
        rw [hunf3] at hok
        obtain ⟨h1, h2, h3⟩ := ih (results ++ [⟨fsa ++ ldu, a⟩]) hok
        have hmapapp : (results ++ [(⟨fsa ++ ldu, a⟩ : SearchEntry α)]).map SearchEntry.postal
            = results.map SearchEntry.postal ++ [fsa ++ ldu] := by
          simp
        refine ⟨?_, ?_, ?_⟩
        · rw [hunf1, hunf2, h1, hmapapp]
          simp
        · rw [hunf2]
          refine List.Pairwise.cons ?_ h2
          intro q hq
          have := (h3 q).mp hq
          rw [hmapapp] at this
          intro hqeq
          exact this.2 (by rw [← hqeq]; simp)
        · intro q
          rw [hunf2]
          constructor
          · intro hq
            rcases List.mem_cons.mp hq with rfl | hq'
            · exact ⟨⟨ldu, List.mem_cons_self _ _, rfl⟩, hnmem⟩
            · have := (h3 q).mp hq'
              rw [hmapapp] at this
              refine ⟨?_, fun hmem => this.2 (by simp [hmem])⟩
              rcases this.1 with ⟨l, hl, rfl⟩
              exact ⟨l, List.mem_cons_of_mem _ hl, rfl⟩
          · rintro ⟨⟨l, hl, rfl⟩, hnot⟩
            rcases List.mem_cons.mp hl with rfl | hl'
            · exact List.mem_cons_self _ _
            · by_cases hsame : fsa ++ l = fsa ++ ldu
              · rw [hsame]
                exact List.mem_cons_self _ _
              · refine List.mem_cons_of_mem _ ((h3 (fsa ++ l)).mpr ⟨⟨l, hl', rfl⟩, ?_⟩)
                rw [hmapapp]
                intro hmem
                rcases List.mem_append.mp hmem with h | h
                · exact hnot h
                · exact hsame (List.mem_singleton.mp h)

/-- All lookups succeeding means the run completes normally. -/
theorem fsaEdSearchGo_ok_of_all_ok {ε α : Type} (lookupE : String → Except ε α)
    (fsa : String) (hall : ∀ q, ∃ a, lookupE q = Except.ok a) :
    ∀ (ldus : List String) (results : List (SearchEntry α)),
      (fsaEdSearchGo lookupE fsa ldus results).2.2 = Except.ok () := by
  intro ldus
  induction ldus with
  | nil =>
    intro results
    simp [fsaEdSearchGo]
  | cons ldu rest ih =>
    intro results
    by_cases hf : ((results.find? fun r => r.postal == fsa ++ ldu).isSome : Prop)
    · rw [show fsaEdSearchGo lookupE fsa (ldu :: rest) results
          = fsaEdSearchGo lookupE fsa rest results by simp [fsaEdSearchGo, hf]]
      exact ih results
    · obtain ⟨a, ha⟩ := hall (fsa ++ ldu)
      rw [show (fsaEdSearchGo lookupE fsa (ldu :: rest) results).2.2
          = (fsaEdSearchGo lookupE fsa rest (results ++ [⟨fsa ++ ldu, a⟩])).2.2 by
        simp [fsaEdSearchGo, hf, ha]]
      exact ih _

/-- C1: when lookups succeed, the Search Engine issues exactly one
external lookup for each candidate postal code (fsa + ldu) not already
present in the loaded existing result set, and none for a candidate
already present, whether loaded or appended earlier in the same run
(the issued codes are the not-yet-present candidates, without
repetition); consequently, if the loaded postal codes are unique, the
postal codes of the accumulated result set stay unique.  In
particular, on candidates `[L1, L2]` with `fsa ++ L1` already loaded
and `fsa ++ L2` not, exactly the one lookup for `fsa ++ L2` is
issued. -/
theorem c1_search_skips_existing_and_unique {ε α : Type}
    (lookupE : String → Except ε α) (fsa : String) (ldus : List String)
    (existing : List (SearchEntry α))
    (hall : ∀ q, ∃ a, lookupE q = Except.ok a) :
    (∀ q, q ∈ (fsaEdSearchFor lookupE fsa ldus existing).2.1 ↔
      ((∃ l ∈ ldus, q = fsa ++ l) ∧ q ∉ existing.map SearchEntry.postal)) ∧
    (fsaEdSearchFor lookupE fsa ldus existing).2.1.Nodup ∧
    ((fsaEdSearchFor lookupE fsa ldus existing).1.map SearchEntry.postal
      = existing.map SearchEntry.postal
        ++ (fsaEdSearchFor lookupE fsa ldus existing).2.1) ∧
    ((existing.map SearchEntry.postal).Nodup →
      ((fsaEdSearchFor lookupE fsa ldus existing).1.map SearchEntry.postal).Nodup) ∧
    (∀ L1 L2 : String, fsa ++ L1 ∈ existing.map SearchEntry.postal →
      fsa ++ L2 ∉ existing.map SearchEntry.postal →
      (fsaEdSearchFor lookupE fsa [L1, L2] existing).2.1 = [fsa ++ L2]) := by
  unfold fsaEdSearchFor
  have hok := fsaEdSearchGo_ok_of_all_ok lookupE fsa hall ldus existing
  obtain ⟨h1, h2, h3⟩ := fsaEdSearchGo_ok_spec lookupE fsa ldus existing hok
  refine ⟨h3, h2, h1, ?_, ?_⟩
  · intro hnd
    rw [h1]
    rw [List.nodup_append]
    refine ⟨hnd, h2, ?_⟩
    intro q hq hq2
    exact ((h3 q).mp hq2).2 hq
  · intro L1 L2 hin hnotin
    have hok2 := fsaEdSearchGo_ok_of_all_ok lookupE fsa hall [L1, L2] existing
    obtain ⟨g1, g2, g3⟩ := fsaEdSearchGo_ok_spec lookupE fsa [L1, L2] existing hok2
    have hmem2 : fsa ++ L2 ∈ (fsaEdSearchGo lookupE fsa [L1, L2] existing).2.1 :=
      (g3 (fsa ++ L2)).mpr ⟨⟨L2, by simp, rfl⟩, hnotin⟩
    have hsub : ∀ q ∈ (fsaEdSearchGo lookupE fsa [L1, L2] existing).2.1,
        q = fsa ++ L2 := by
      intro q hq
      obtain ⟨⟨l, hl, rfl⟩, hnot⟩ := (g3 q).mp hq
      rcases List.mem_cons.mp hl with rfl | hl'
      · exact absurd hin hnot
      · rcases List.mem_singleton.mp hl' with rfl
        rfl
    cases hiss : (fsaEdSearchGo lookupE fsa [L1, L2] existing).2.1 with
    | nil => rw [hiss] at hmem2; cases hmem2
    | cons q qs =>
      rw [hiss] at hsub g2
      have hq : q = fsa ++ L2 := hsub q (List.mem_cons_self _ _)
      cases qs with
      | nil => rw [hq]
      | cons q' qs' =>
        have hq' : q' = fsa ++ L2 := hsub q' (by simp)
        have hnd := List.nodup_cons.mp g2
        have hqmem : q ∈ q' :: qs' := by
          rw [hq, ← hq']
          exact List.mem_cons_self _ _
        exact absurd hqmem hnd.1

/-- Witness for C1: fsa `K1A`, candidates `[0A1, 0A2]`, with `K1A0A1`
already loaded; exactly the lookup for `K1A0A2` is issued. -/
theorem c1_search_skips_existing_and_unique_witness :
    (fsaEdSearchFor (fun _ => (Except.ok 0 : Except Unit Nat)) "K1A"
      ["0A1", "0A2"] [⟨"K1A0A1", 0⟩]).2.1 = ["K1A0A2"] := by
  have h := c1_search_skips_existing_and_unique
    (fun _ => (Except.ok 0 : Except Unit Nat)) "K1A" ["0A1", "0A2"]
    [⟨"K1A0A1", 0⟩] (fun _ => ⟨0, rfl⟩)
  have h2 := h.2.2.2.2 "0A1" "0A2" (by decide) (by decide)
  exact h2.trans (by decide)

/-- C2: if a lookup of the Search Engine fails fatally, the result
array handed to the final write (the `finally` block's
`fs.writeFile`) still contains every loaded entry and every entry
appended before the failure — it is exactly the loaded list followed
by the successfully looked-up candidates — and the propagated error is
the failure of an actual candidate lookup. -/
theorem c2_partial_results_flushed_on_error {ε α : Type}
    (lookupE : String → Except ε α) (fsa : String) (ldus : List String)
    (existing : List (SearchEntry α)) (e : ε)
    (herr : (fsaEdSearchFor lookupE fsa ldus existing).2.2 = Except.error e) :
    (∃ app, (fsaEdSearchFor lookupE fsa ldus existing).1 = existing ++ app ∧
      ∀ x ∈ app, lookupE x.postal = Except.ok x.result ∧
        ∃ l ∈ ldus, x.postal = fsa ++ l) ∧
    (∀ x ∈ existing, x ∈ (fsaEdSearchFor lookupE fsa ldus existing).1) ∧
    (∃ q, (∃ l ∈ ldus, q = fsa ++ l) ∧ lookupE q = Except.error e) := by
  unfold fsaEdSearchFor at herr ⊢
  obtain ⟨app, h1, h2⟩ := fsaEdSearchGo_written lookupE fsa ldus existing
  refine ⟨⟨app, h1, h2⟩, ?_, fsaEdSearchGo_error lookupE fsa ldus existing e herr⟩
  intro x hx
  rw [h1]
  exact List.mem_append_left _ hx

/-- Witness for C2: one loaded entry, one candidate whose lookup
fails; the loaded entry is still in the array written on error. -/
theorem c2_partial_results_flushed_on_error_witness :
    (⟨"K1A9Z9", ()⟩ : SearchEntry Unit) ∈
      (fsaEdSearchFor (fun _ => (Except.error 0 : Except Nat Unit)) "K1A"
        ["0A1"] [⟨"K1A9Z9", ()⟩]).1 :=
  (c2_partial_results_flushed_on_error
    (fun _ => (Except.error 0 : Except Nat Unit)) "K1A" ["0A1"]
    [⟨"K1A9Z9", ()⟩] 0 (by rfl)).2.1 ⟨"K1A9Z9", ()⟩ (by simp)

/-! ## Retry loop of `fsaEdSearchFor` (postal.js lines 437-453) -/

/-- Events of one postal-code lookup: the fixed 900 ms `delay(900)`
and the HTTP request of attempt number `n` (0-based). -/
inductive ReqEvent where
  | wait (ms : Nat)
  | request (n : Nat)
deriving DecidableEq

/-- The retry loop `for (let retry = 0; ; retry++)` around one lookup.
`attemptFn n` is the outcome of the `n`-th attempt of `await get(url)`
(the oracle for this postal code), `r` is the current value of the
`retry` counter and `remaining = 3 - r` the number of retries still
allowed by the `retry < 3` bound.  Each iteration first awaits the
fixed `delay(900)` and then issues the request; a success breaks out
of the loop, a failure retries while `retry < 3` and rethrows the
error once the bound is exhausted.  Returns the event trace and the
final outcome. -/
def lookupRetryGo {ε α : Type} (attemptFn : Nat → Except ε α) :
    Nat → Nat → List ReqEvent × Except ε α
  | r, remaining =>
    match attemptFn r, remaining with
    | Except.ok a, _ => ([ReqEvent.wait 900, ReqEvent.request r], Except.ok a)
    | Except.error e, 0 => ([ReqEvent.wait 900, ReqEvent.request r], Except.error e)
    | Except.error _, remaining' + 1 =>
      let next := lookupRetryGo attemptFn (r + 1) remaining'
      (ReqEvent.wait 900 :: ReqEvent.request r :: next.1, next.2)

/-- One full lookup with retries: the loop entered with `retry = 0`
and 3 retries allowed (at most 4 attempts). -/
def lookupWithRetry {ε α : Type} (attemptFn : Nat → Except ε α) :
    List ReqEvent × Except ε α :=
  lookupRetryGo attemptFn 0 3

/-- If attempts `r, ..., r + remaining - 1` fail and attempt
`r + remaining` also fails, the loop performs exactly those
`remaining + 1` attempts, each preceded by the fixed delay, and
propagates the last error. -/
theorem lookupRetryGo_all_fail {ε α : Type} (attemptFn : Nat → Except ε α) :
    ∀ (remaining r : Nat) (e : ε),
      (∀ i, r ≤ i → i < r + remaining → ∃ e', attemptFn i = Except.error e') →
      attemptFn (r + remaining) = Except.error e →
      lookupRetryGo attemptFn r remaining =
        ((List.range' r (remaining + 1)).flatMap
          (fun i => [ReqEvent.wait 900, ReqEvent.request i]), Except.error e) := by
  intro remaining
  induction remaining with
  | zero =>
    intro r e _ hlast
    rw [Nat.add_zero] at hlast
    unfold lookupRetryGo
    rw [hlast]
    simp [List.range']
  | succ rem ih =>
    intro r e hfail hlast
    obtain ⟨e0, he0⟩ := hfail r (Nat.le_refl r) (by omega)
    have hrec := ih (r + 1) e
      (fun i h1 h2 => hfail i (by omega) (by omega))
      (by rw [show r + 1 + rem = r + (rem + 1) by omega]; exact hlast)
    unfold lookupRetryGo
    rw [he0]
    simp only []
    rw [hrec]
    simp [List.range'_succ]

/-- If attempts `r, ..., k - 1` fail and attempt `k` succeeds within
the remaining budget, the loop performs exactly attempts `r..k`, each
preceded by the fixed delay, and returns the success. -/
theorem lookupRetryGo_succeeds {ε α : Type} (attemptFn : Nat → Except ε α) :
    ∀ (remaining r k : Nat) (a : α),
      r ≤ k → k ≤ r + remaining → attemptFn k = Except.ok a →
      (∀ i, r ≤ i → i < k → ∃ e, attemptFn i = Except.error e) →
      lookupRetryGo attemptFn r remaining =
        ((List.range' r (k - r + 1)).flatMap
          (fun i => [ReqEvent.wait 900, ReqEvent.request i]), Except.ok a) := by
  intro remaining
  induction remaining with
  | zero =>
    intro r k a h1 h2 hok _
    have hkr : k = r := by omega
    subst hkr
    unfold lookupRetryGo
    rw [hok]
    simp [List.range']
  | succ rem ih =>
    intro r k a h1 h2 hok hfail
    by_cases hkr : k = r
    · subst hkr
      unfold lookupRetryGo
      rw [hok]
      simp [List.range']
    · obtain ⟨e0, he0⟩ := hfail r (Nat.le_refl r) (by omega)
      have hrec := ih (r + 1) k a (by omega) (by omega) hok
        (fun i hi1 hi2 => hfail i (by omega) hi2)
      unfold lookupRetryGo
      rw [he0]
      simp only []
      rw [hrec]
      rw [show k - r + 1 = (k - (r + 1) + 1) + 1 by omega]
      simp [List.range'_succ]

/-- C3: a transiently failing lookup is retried up to 3 times (at most
4 attempts, numbered 0..3), with the same fixed 900 ms delay waited
before every attempt, the first as well as each retry; if some attempt
within the bound succeeds the loop stops there, and after the retry
bound is exhausted the last failure is propagated to the caller rather
than suppressed. -/
theorem c3_retry_bounded_with_delay {ε α : Type} (attemptFn : Nat → Except ε α) :
    (∀ (k : Nat) (a : α), k ≤ 3 → attemptFn k = Except.ok a →
      (∀ i, i < k → ∃ e, attemptFn i = Except.error e) →
      lookupWithRetry attemptFn =
        ((List.range (k + 1)).flatMap
          (fun i => [ReqEvent.wait 900, ReqEvent.request i]), Except.ok a)) ∧
    (∀ e : ε, (∀ i, i < 3 → ∃ e', attemptFn i = Except.error e') →
      attemptFn 3 = Except.error e →
      lookupWithRetry attemptFn =
        ((List.range 4).flatMap
          (fun i => [ReqEvent.wait 900, ReqEvent.request i]), Except.error e)) := by
  constructor
  · intro k a hk hok hfail
    unfold lookupWithRetry
    rw [lookupRetryGo_succeeds attemptFn 3 0 k a (Nat.zero_le k) (by omega) hok
      (fun i _ hi => hfail i hi)]
    rw [List.range_eq_range']
    simp
  · intro e hfail hlast
    unfold lookupWithRetry
    rw [lookupRetryGo_all_fail attemptFn 3 0 e
      (fun i h1 h2 => hfail i (by omega)) (by simpa using hlast)]
    rw [List.range_eq_range']

/-- Witness for C3: attempts 0 and 1 fail, attempt 2 succeeds; three
delayed attempts are performed and the success is returned. -/
theorem c3_retry_bounded_with_delay_witness :
    lookupWithRetry (fun i => if i < 2 then (Except.error 0 : Except Nat Nat)
        else Except.ok 7) =
      ((List.range 3).flatMap
        (fun i => [ReqEvent.wait 900, ReqEvent.request i]), Except.ok 7) :=
  (c3_retry_bounded_with_delay _).1 2 7 (by decide) (by simp)
    (fun i hi => ⟨0, by simp [hi]⟩)

/-! ## Line normalization (`dataLines`, postal.js lines 223-236) -/

/-- `data.html().split('<hr>')[0]`: the markup before the first
occurrence of `<hr>` (all of it when there is none). -/
def beforeHr : List Char → List Char
  | '<' :: 'h' :: 'r' :: '>' :: _ => []
  | c :: rest => c :: beforeHr rest
  | [] => []

/-- The first `replace` call of `dataLines` (pattern `-<br>`,
replacement `-`): global left-to-right replacement of a line break
immediately preceded by a hyphen. -/
def replaceDashBr : List Char → List Char
  | '-' :: '<' :: 'b' :: 'r' :: '>' :: rest => '-' :: replaceDashBr rest
  | c :: rest => c :: replaceDashBr rest
  | [] => []

/-- The second `replace` call of `dataLines` (pattern `<br>`,
replacement a newline): global left-to-right replacement of the
remaining line breaks. -/
def replaceBr : List Char → List Char
  | '<' :: 'b' :: 'r' :: '>' :: rest => '\n' :: replaceBr rest
  | c :: rest => c :: replaceBr rest
  | [] => []

/-- One-pass rendering of the line-break rule as the spec states it: a
`<br>` immediately preceded by a hyphen is a mid-word continuation (no
break), every other `<br>` becomes a newline.  Written independently
of the two sequential `replace` calls of the source; the two are
proved equal below. -/
def fixBr : List Char → List Char
  | '-' :: '<' :: 'b' :: 'r' :: '>' :: rest => '-' :: fixBr rest
  | '<' :: 'b' :: 'r' :: '>' :: rest => '\n' :: fixBr rest
  | c :: rest => c :: fixBr rest
  | [] => []

/-- `cheerio.load(html).text()` modelled as tag stripping: characters
between `<` and the next `>` are markup, everything else is text; an
unterminated tag swallows the rest.  The Boolean is the inside-a-tag
state. -/
def stripTags : List Char → Bool → List Char
  | [], _ => []
  | c :: rest, false =>
    if c = '<' then stripTags rest true else c :: stripTags rest false
  | c :: rest, true =>
    if c = '>' then stripTags rest false else stripTags rest true

/-- The footnote `replace` call (pattern `\[[0-9]+\]`, replacement
the empty string) as a single left-to-right scan,
which is what the JS regex engine performs: `none` state is normal
text; `some ds` means a `[` has been read, followed so far by the
digits `ds` (reversed).  A digit run closed by `]` is a footnote
marker and is dropped; anything else makes the pending characters
literal text again. -/
def stripFootGo : List Char → Option (List Char) → List Char
  | [], none => []
  | [], some ds => '[' :: ds.reverse
  | c :: rest, none =>
    if c = '[' then stripFootGo rest (some [])
    else c :: stripFootGo rest none
  | c :: rest, some ds =>
    if c.isDigit then stripFootGo rest (some (c :: ds))
    else if c = ']' then
      if ds.isEmpty then '[' :: ']' :: stripFootGo rest none
      else stripFootGo rest none
    else if c = '[' then '[' :: (ds.reverse ++ stripFootGo rest (some []))
    else '[' :: (ds.reverse ++ (c :: stripFootGo rest none))

/-- Strip all bracketed footnote markers `[<digits>]` from a line. -/
def stripFootnotes (l : List Char) : List Char := stripFootGo l none

/-- JS `String.prototype.split` on the characters selected by `p`
(empty pieces are kept, as in JS). -/
def splitP (p : Char → Bool) : List Char → List (List Char)
  | [] => [[]]
  | c :: rest =>
    if p c then [] :: splitP p rest
    else
      match splitP p rest with
      | [] => [[c]]
      | s :: ss => (c :: s) :: ss

/-- JS `String.prototype.trim`: drop leading and trailing whitespace. -/
def trimL (l : List Char) : List Char :=
  ((l.dropWhile Char.isWhitespace).reverse.dropWhile Char.isWhitespace).reverse

/-- `dataLines` of postal.js, on the cell markup as a character list:
truncate at the first `<hr>`, apply the two `<br>` replacements,
extract the text, split on newlines, trim each line, strip footnote
markers, and keep the non-empty lines. -/
def dataLinesL (s : List Char) : List (List Char) :=
  (((splitP (fun c => c == '\n')
        (stripTags (replaceBr (replaceDashBr (beforeHr s))) false)).map
      trimL).map stripFootnotes).filter (fun l => !l.isEmpty)

/-- `dataLines` on a markup string, producing the list of lines. -/
def dataLines (s : String) : List String :=
  (dataLinesL s.data).map (fun l => String.mk l)

/-- The line pipeline as the spec words it, with the one-pass
line-break rule `fixBr` in place of the source's two sequential
`replace` calls. -/
def dataLinesSpecL (s : List Char) : List (List Char) :=
  (((splitP (fun c => c == '\n')
        (stripTags (fixBr (beforeHr s)) false)).map
      trimL).map stripFootnotes).filter (fun l => !l.isEmpty)

/-! ## Equivalence of the two-pass line-break replacement with the
one-pass rule, and truncation at the first horizontal rule -/

theorem replaceDashBr_cons (c : Char) (t : List Char)
    (h : ¬(c = '-' ∧ t.take 4 = ['<', 'b', 'r', '>'])) :
    replaceDashBr (c :: t) = c :: replaceDashBr t := by
  rw [replaceDashBr.eq_def]
  split
  · rename_i rest heq
    rw [show c = '-' from (List.cons.injEq _ _ _ _).mp heq |>.1] at h
    have ht := (List.cons.injEq _ _ _ _).mp heq |>.2
    exact absurd ⟨rfl, by rw [ht]; rfl⟩ h
  · rename_i c' rest' heq
    have := (List.cons.injEq _ _ _ _).mp heq
    rw [this.1, this.2]
  · rename_i heq
    cases heq

theorem replaceBr_cons (c : Char) (t : List Char)
    (h : ¬(c = '<' ∧ t.take 3 = ['b', 'r', '>'])) :
    replaceBr (c :: t) = c :: replaceBr t := by
  rw [replaceBr.eq_def]
  split
  · rename_i rest heq
    rw [show c = '<' from (List.cons.injEq _ _ _ _).mp heq |>.1] at h
    have ht := (List.cons.injEq _ _ _ _).mp heq |>.2
    exact absurd ⟨rfl, by rw [ht]; rfl⟩ h
  · rename_i c' rest' heq
    have := (List.cons.injEq _ _ _ _).mp heq
    rw [this.1, this.2]
  · rename_i heq
    cases heq

theorem fixBr_cons (c : Char) (t : List Char)
    (h1 : ¬(c = '-' ∧ t.take 4 = ['<', 'b', 'r', '>']))
    (h2 : ¬(c = '<' ∧ t.take 3 = ['b', 'r', '>'])) :
    fixBr (c :: t) = c :: fixBr t := by
  rw [fixBr.eq_def]
  split
  · rename_i rest heq
    rw [show c = '-' from (List.cons.injEq _ _ _ _).mp heq |>.1] at h1
    have ht := (List.cons.injEq _ _ _ _).mp heq |>.2
    exact absurd ⟨rfl, by rw [ht]; rfl⟩ h1
  · rename_i rest heq
    rw [show c = '<' from (List.cons.injEq _ _ _ _).mp heq |>.1] at h2
    have ht := (List.cons.injEq _ _ _ _).mp heq |>.2
    exact absurd ⟨rfl, by rw [ht]; rfl⟩ h2
  · rename_i c' rest' heq
    have := (List.cons.injEq _ _ _ _).mp heq
    rw [this.1, this.2]
  · rename_i heq
    cases heq

theorem replaceDashBr_take1 (t : List Char)
    (h : (replaceDashBr t).take 1 = ['>']) : t.take 1 = ['>'] := by
  cases t with
  | nil => simp [replaceDashBr] at h
  | cons c u =>
    by_cases hm : c = '-' ∧ u.take 4 = ['<', 'b', 'r', '>']
    · have hu : u = '<' :: 'b' :: 'r' :: '>' :: u.drop 4 := by
        conv_lhs => rw [← List.take_append_drop 4 u]
        rw [hm.2]
        rfl
      rw [hm.1, hu] at h
      simp [replaceDashBr] at h
    · rw [replaceDashBr_cons c u hm] at h
      simp at h
      simp [h]

theorem replaceDashBr_take2 (t : List Char)
    (h : (replaceDashBr t).take 2 = ['r', '>']) : t.take 2 = ['r', '>'] := by
  cases t with
  | nil => simp [replaceDashBr] at h
  | cons c u =>
    by_cases hm : c = '-' ∧ u.take 4 = ['<', 'b', 'r', '>']
    · have hu : u = '<' :: 'b' :: 'r' :: '>' :: u.drop 4 := by
        conv_lhs => rw [← List.take_append_drop 4 u]
        rw [hm.2]
        rfl
      rw [hm.1, hu] at h
      simp [replaceDashBr] at h
    · rw [replaceDashBr_cons c u hm] at h
      simp at h
      obtain ⟨rfl, h2⟩ := h
      have := replaceDashBr_take1 u h2
      simp [this]

theorem replaceDashBr_take3 (t : List Char)
    (h : (replaceDashBr t).take 3 = ['b', 'r', '>']) : t.take 3 = ['b', 'r', '>'] := by
  cases t with
  | nil => simp [replaceDashBr] at h
  | cons c u =>
    by_cases hm : c = '-' ∧ u.take 4 = ['<', 'b', 'r', '>']
    · have hu : u = '<' :: 'b' :: 'r' :: '>' :: u.drop 4 := by
        conv_lhs => rw [← List.take_append_drop 4 u]
        rw [hm.2]
        rfl
      rw [hm.1, hu] at h
      simp [replaceDashBr] at h
    · rw [replaceDashBr_cons c u hm] at h
      simp at h
      obtain ⟨rfl, h2⟩ := h
      have := replaceDashBr_take2 u h2
      simp [this]

theorem replaceBr_replaceDashBr_eq_fixBr : ∀ l : List Char,
    replaceBr (replaceDashBr l) = fixBr l := by
  have H : ∀ (n : Nat) (l : List Char), l.length ≤ n →
      replaceBr (replaceDashBr l) = fixBr l := by
    intro n
    induction n with
    | zero =>
      intro l hl
      have : l = [] := List.length_eq_zero.mp (Nat.le_zero.mp hl)
      subst this
      rfl
    | succ n ih =>
      intro l hl
      by_cases h5 : l.take 5 = ['-', '<', 'b', 'r', '>']
      · have hl5 : l = '-' :: '<' :: 'b' :: 'r' :: '>' :: l.drop 5 := by
          conv_lhs => rw [← List.take_append_drop 5 l]
          rw [h5]
          rfl
        rw [hl5]
        rw [show replaceDashBr ('-' :: '<' :: 'b' :: 'r' :: '>' :: l.drop 5)
            = '-' :: replaceDashBr (l.drop 5) from rfl]
        rw [show fixBr ('-' :: '<' :: 'b' :: 'r' :: '>' :: l.drop 5)
            = '-' :: fixBr (l.drop 5) from rfl]
        rw [replaceBr_cons '-' _ (fun hc => by simp at hc)]
        rw [ih (l.drop 5) (by rw [hl5] at hl; simp at hl ⊢; omega)]
      · by_cases h4 : l.take 4 = ['<', 'b', 'r', '>']
        · have hl4 : l = '<' :: 'b' :: 'r' :: '>' :: l.drop 4 := by
            conv_lhs => rw [← List.take_append_drop 4 l]
            rw [h4]
            rfl
          rw [hl4]
          rw [show replaceDashBr ('<' :: 'b' :: 'r' :: '>' :: l.drop 4)
              = '<' :: 'b' :: 'r' :: '>' :: replaceDashBr (l.drop 4) from rfl]
          rw [show replaceBr ('<' :: 'b' :: 'r' :: '>' :: replaceDashBr (l.drop 4))
              = '\n' :: replaceBr (replaceDashBr (l.drop 4)) from rfl]
          rw [show fixBr ('<' :: 'b' :: 'r' :: '>' :: l.drop 4)
              = '\n' :: fixBr (l.drop 4) from rfl]
          rw [ih (l.drop 4) (by rw [hl4] at hl; simp at hl ⊢; omega)]
        · cases l with
          | nil => rfl
          | cons c t =>
            have hm5 : ¬(c = '-' ∧ t.take 4 = ['<', 'b', 'r', '>']) := by
              rintro ⟨rfl, ht⟩
              exact h5 (by simp [List.take, ht])
            have hm4 : ¬(c = '<' ∧ t.take 3 = ['b', 'r', '>']) := by
              rintro ⟨rfl, ht⟩
              exact h4 (by simp [List.take, ht])
            rw [replaceDashBr_cons c t hm5, fixBr_cons c t hm5 hm4]
            rw [replaceBr_cons c (replaceDashBr t) (by
              rintro ⟨rfl, htake⟩
              exact hm4 ⟨rfl, replaceDashBr_take3 t htake⟩)]
            rw [ih t (by simp at hl; omega)]
  intro l
  exact H l.length l (Nat.le_refl _)

/-- Does the markup contain an `<hr>` separator? -/
def containsHr : List Char → Bool
  | '<' :: 'h' :: 'r' :: '>' :: _ => true
  | _ :: rest => containsHr rest
  | [] => false

theorem beforeHr_cons (c : Char) (t : List Char)
    (h : ¬(c = '<' ∧ t.take 3 = ['h', 'r', '>'])) :
    beforeHr (c :: t) = c :: beforeHr t := by
  rw [beforeHr.eq_def]
  split
  · rename_i rest heq
    rw [show c = '<' from (List.cons.injEq _ _ _ _).mp heq |>.1] at h
    have ht := (List.cons.injEq _ _ _ _).mp heq |>.2
    exact absurd ⟨rfl, by rw [ht]; rfl⟩ h
  · rename_i c' rest' heq
    have := (List.cons.injEq _ _ _ _).mp heq
    rw [this.1, this.2]
  · rename_i heq
    cases heq

theorem containsHr_cons (c : Char) (t : List Char)
    (h : ¬(c = '<' ∧ t.take 3 = ['h', 'r', '>'])) :
    containsHr (c :: t) = containsHr t := by
  rw [containsHr.eq_def]
  split
  · rename_i rest heq
    rw [show c = '<' from (List.cons.injEq _ _ _ _).mp heq |>.1] at h
    have ht := (List.cons.injEq _ _ _ _).mp heq |>.2
    exact absurd ⟨rfl, by rw [ht]; rfl⟩ h
  · rename_i c' rest' heq
    have := (List.cons.injEq _ _ _ _).mp heq
    rw [this.2]
  · rename_i heq
    cases heq

theorem take3_append_hr (t b : List Char)
    (h : (t ++ '<' :: 'h' :: 'r' :: '>' :: b).take 3 = ['h', 'r', '>']) :
    t.take 3 = ['h', 'r', '>'] := by
  match t with
  | [] => simp at h
  | [x] =>
    simp [List.take] at h
  | [x, y] =>
    simp [List.take] at h
  | x :: y :: z :: t' =>
    simp [List.take] at h ⊢
    exact h

theorem beforeHr_append (b : List Char) : ∀ a : List Char, containsHr a = false →
    beforeHr (a ++ '<' :: 'h' :: 'r' :: '>' :: b) = a ∧ beforeHr a = a := by
  intro a
  induction a with
  | nil => intro _; exact ⟨rfl, rfl⟩
  | cons c t ih =>
    intro h
    have hm : ¬(c = '<' ∧ t.take 3 = ['h', 'r', '>']) := by
      rintro ⟨rfl, ht⟩
      have hteq : t = 'h' :: 'r' :: '>' :: t.drop 3 := by
        conv_lhs => rw [← List.take_append_drop 3 t]
        rw [ht]
        rfl
      rw [hteq] at h
      simp [containsHr] at h
    rw [containsHr_cons c t hm] at h
    obtain ⟨ih1, ih2⟩ := ih h
    have hmapp : ¬(c = '<' ∧ (t ++ '<' :: 'h' :: 'r' :: '>' :: b).take 3 = ['h', 'r', '>']) := by
      rintro ⟨rfl, ht⟩
      exact hm ⟨rfl, take3_append_hr t b ht⟩
    constructor
    · rw [show (c :: t) ++ '<' :: 'h' :: 'r' :: '>' :: b
          = c :: (t ++ '<' :: 'h' :: 'r' :: '>' :: b) from rfl]
      rw [beforeHr_cons _ _ hmapp, ih1]
    · rw [beforeHr_cons c t hm, ih2]

/-- JS `String.prototype.trim` on a Lean string. -/
def trimS (s : String) : String := String.mk (trimL s.data)

/-- C5 counterexample: on the cell markup `A [1]` the code returns the
single line `A ` with a trailing space — the footnote marker is
stripped only after trimming, so the returned line is not a trimmed
line as the claim states. -/
theorem c5_counterexample :
    dataLines "A [1]" = ["A "] ∧ trimS "A " ≠ "A " := by
  constructor
  · decide
  · decide

/-- C5 (amended): `dataLines` returns the cell's non-empty lines
computed by truncating the markup at the first horizontal rule,
treating a line break immediately preceded by a hyphen as a mid-word
continuation while collapsing all other line breaks to newlines
(proved by equivalence with the independent one-pass rule `fixBr`),
trimming each line, then stripping bracketed footnote markers
`[<digits>]` (which can leave residual edge whitespace when a marker
abuts whitespace, so returned lines need not be fully trimmed), and
dropping lines that are empty after these steps.  In particular a cell
whose name is split as `Some-` `<br>` `Town` yields the single line
`Some-Town`. -/
theorem c5_amended_pipeline :
    (∀ s : List Char, dataLinesL s = dataLinesSpecL s) ∧
    (∀ a b : List Char, containsHr a = false →
      dataLinesL (a ++ '<' :: 'h' :: 'r' :: '>' :: b) = dataLinesL a) ∧
    (∀ s : String, ∀ t ∈ dataLines s, t ≠ "") ∧
    dataLines "A1B<br>Some-<br>Town<br>Further detail"
      = ["A1B", "Some-Town", "Further detail"] ∧
    dataLines " Some Town[1] " = ["Some Town"] ∧
    dataLines "A [1]" = ["A "] := by
  refine ⟨?_, ?_, ?_, by decide, by decide, by decide⟩
  · intro s
    unfold dataLinesL dataLinesSpecL
    rw [replaceBr_replaceDashBr_eq_fixBr (beforeHr s)]
  · intro a b h
    unfold dataLinesL
    rw [(beforeHr_append b a h).1, (beforeHr_append b a h).2]
  · intro s t ht
    unfold dataLines at ht
    rcases List.mem_map.mp ht with ⟨l, hl, rfl⟩
    have hne := (List.mem_filter.mp hl).2
    intro hemp
    have : l = [] := congrArg String.data hemp
    rw [this] at hne
    simp at hne

/-- Witness for C5 (amended): truncation at `<hr>` on a concrete
markup. -/
theorem c5_amended_pipeline_witness :
    dataLinesL ("X".data ++ '<' :: 'h' :: 'r' :: '>' :: "Y<br>Z".data)
      = dataLinesL "X".data :=
  c5_amended_pipeline.2.1 "X".data "Y<br>Z".data (by decide)

/-! ## Rural LDU line parsing (`fsaScrapeFrom`, postal.js lines 266-283) -/

/-- One LDU entry of a rural FSA record. -/
structure LduEntry where
  ldu : String
  name : String
  retired : Bool
deriving DecidableEq

/-- Parse one rural payload line, as the code does:
`parts = line.split(':')`, `ldu = parts[0].trim()`,
`name = parts[1].trim()`, and a trailing asterisk on the trimmed name
marks the entry retired and is stripped.  A line without a colon makes
`parts[1]` JS `undefined` and `parts[1].trim()` a `TypeError`,
modelled `none`. -/
def parseLduLineL (l : List Char) : Option LduEntry :=
  match splitP (fun c => c == ':') l with
  | p0 :: p1 :: _ =>
    let namePart := trimL p1
    if namePart.getLast? = some '*' then
      some ⟨String.mk (trimL p0), String.mk namePart.dropLast, true⟩
    else some ⟨String.mk (trimL p0), String.mk namePart, false⟩
  | _ => none

/-- `parseLduLineL` on a string line. -/
def parseLduLine (s : String) : Option LduEntry := parseLduLineL s.data

/-- Splitting a list without separators yields the single piece. -/
theorem splitP_no_sep (p : Char → Bool) :
    ∀ l : List Char, (∀ c ∈ l, p c = false) → splitP p l = [l] := by
  intro l
  induction l with
  | nil => intro _; rfl
  | cons c t ih =>
    intro h
    have hc : p c = false := h c (List.mem_cons_self _ _)
    have ht := ih (fun x hx => h x (List.mem_cons_of_mem _ hx))
    simp only [splitP, hc]
    rw [ht]
    simp

/-- Splitting `a ++ x :: l` where `a` is separator-free and `x` is a
separator yields `a` followed by the pieces of `l`. -/
theorem splitP_append_sep (p : Char → Bool) (x : Char) (l : List Char)
    (hx : p x = true) :
    ∀ a : List Char, (∀ c ∈ a, p c = false) →
      splitP p (a ++ x :: l) = a :: splitP p l := by
  intro a
  induction a with
  | nil =>
    intro _
    simp [splitP, hx]
  | cons c t ih =>
    intro h
    have hc : p c = false := h c (List.mem_cons_self _ _)
    have ht := ih (fun y hy => h y (List.mem_cons_of_mem _ hy))
    simp only [List.cons_append, splitP, hc, List.append_eq]
    rw [ht]
    simp

/-- C6 counterexample: on the line `A1A: Foo: Bar` (a name containing
a colon) the code keeps only the segment between the first and second
colon — `split(':')` takes `parts[1]` — whereas splitting on the first
colon, as the claim states, would give the name `Foo: Bar`. -/
theorem c6_counterexample :
    parseLduLine "A1A: Foo: Bar" = some ⟨"A1A", "Foo", false⟩ ∧
    parseLduLine "A1A: Foo: Bar" ≠ some ⟨"A1A", "Foo: Bar", false⟩ := by
  constructor
  · decide
  · decide

/-- Evaluation of the rural line parse once its colon split is known
to have at least two parts. -/
theorem parseLduLineL_parts (l : List Char) (p0 p1 : List Char)
    (rest : List (List Char))
    (h : splitP (fun c => c == ':') l = p0 :: p1 :: rest) :
    parseLduLineL l =
      (if (trimL p1).getLast? = some '*' then
        some ⟨String.mk (trimL p0), String.mk (trimL p1).dropLast, true⟩
      else some ⟨String.mk (trimL p0), String.mk (trimL p1), false⟩) := by
  unfold parseLduLineL
  rw [h]

/-- C6 (amended): each rural payload line is parsed by splitting on
colons and taking the first two segments - so the `ldu` is the trimmed
text before the first colon and the `name` comes from the trimmed text
between the first and second colon, any text after a second colon
being discarded; a trailing asterisk on the trimmed name sets
`retired = true` and is stripped.  On a line whose name part contains
no further colon this is exactly the claim's split-on-first-colon
reading, and `A1A: Capital Area*` yields
`{ldu: A1A, name: Capital Area, retired: true}`. -/
theorem c6_amended_parse :
    (∀ a b : List Char, (∀ c ∈ a, c ≠ ':') → (∀ c ∈ b, c ≠ ':') →
      parseLduLineL (a ++ ':' :: b) =
        (if (trimL b).getLast? = some '*' then
          some ⟨String.mk (trimL a), String.mk (trimL b).dropLast, true⟩
        else some ⟨String.mk (trimL a), String.mk (trimL b), false⟩)) ∧
    (∀ a b c : List Char, (∀ x ∈ a, x ≠ ':') → (∀ x ∈ b, x ≠ ':') →
      parseLduLineL (a ++ ':' :: (b ++ ':' :: c)) =
        parseLduLineL (a ++ ':' :: b)) ∧
    parseLduLine "A1A: Capital Area*" = some ⟨"A1A", "Capital Area", true⟩ := by
  refine ⟨?_, ?_, by decide⟩
  · intro a b ha hb
    have ha' : ∀ c ∈ a, (c == ':') = false :=
      fun c hc => beq_eq_false_iff_ne.mpr (ha c hc)
    have hb' : ∀ c ∈ b, (c == ':') = false :=
      fun c hc => beq_eq_false_iff_ne.mpr (hb c hc)
    exact parseLduLineL_parts _ a b [] (by
      rw [splitP_append_sep _ ':' b (by simp) a ha', splitP_no_sep _ b hb'])
  · intro a b c ha hb
    have ha' : ∀ x ∈ a, (x == ':') = false :=
      fun x hx => beq_eq_false_iff_ne.mpr (ha x hx)
    have hb' : ∀ x ∈ b, (x == ':') = false :=
      fun x hx => beq_eq_false_iff_ne.mpr (hb x hx)
    rw [parseLduLineL_parts _ a b (splitP (fun ch => ch == ':') c) (by
        rw [splitP_append_sep _ ':' (b ++ ':' :: c) (by simp) a ha',
          splitP_append_sep _ ':' c (by simp) b hb']),
      parseLduLineL_parts _ a b [] (by
        rw [splitP_append_sep _ ':' b (by simp) a ha', splitP_no_sep _ b hb'])]

/-- Witness for C6 (amended) on a concrete colon-free name part. -/
theorem c6_amended_parse_witness :
    parseLduLineL ("A1A".data ++ ':' :: " Hamlet".data)
      = some ⟨"A1A", "Hamlet", false⟩ := by
  have h := c6_amended_parse.1 "A1A".data " Hamlet".data (by decide) (by decide)
  exact h.trans (by decide)

/-! ## Per-cell FSA record extraction (`fsaScrapeFrom`, postal.js
lines 238-287) -/

/-- The `type` of an FSA record. -/
inductive FsaType where
  | urban
  | rural
deriving DecidableEq

/-- One FSA record produced by `fsaScrapeFrom`.  Fields that JS may
leave `undefined` are `Option`s: `province` (unknown leading letter),
`name` (cell with a single line), `detail` (urban, absent when empty)
and `ldus` (rural only). -/
structure FsaRecord where
  fsa : String
  type : FsaType
  province : Option String
  hotspot : Bool
  name : Option String
  detail : Option String
  ldus : Option (List LduEntry)
deriving DecidableEq

/-- `UNUSED_FSA_NAMES` of postal.js. -/
def UNUSED_FSA_NAMES : List String :=
  ["Not assigned", "Not in use", "Reserved", "Commercial Returns"]

/-- `HOTSPOT_FSAS` of postal.js (the fixed Ontario hotspot list). -/
def HOTSPOT_FSAS : List String :=
  ["L1S", "L1T", "L1V", "L1X", "L1Z", "L9E", "L8W",
   "L9C", "L2G", "K1T", "K1V", "K2V", "L4T", "L4W",
   "L4X", "L4Z", "L5A", "L5B", "L5C", "L5K", "L5L",
   "L5M", "L5N", "L5R", "L5V", "L5W", "L6P", "L6R",
   "L6S", "L6T", "L6V", "L6W", "L6X", "L6Y", "L6Z",
   "L7A", "L7C", "L3Z", "N2C", "N1K", "N8H", "N8X",
   "N8Y", "N9A", "N9B", "N9C", "N9Y", "L0J", "L3S",
   "L3T", "L4B", "L4E", "L4H", "L4J", "L4K", "L4L",
   "L6A", "L6B", "L6C", "L6E", "M1B", "M1C", "M1E",
   "M1G", "M1H", "M1J", "M1K", "M1L", "M1M", "M1P",
   "M1R", "M1S", "M1T", "M1V", "M1W", "M1X", "M2J",
   "M2M", "M2R", "M3A", "M3C", "M3H", "M3J", "M3K",
   "M3L", "M3M", "M3N", "M4A", "M4H", "M4X", "M5A",
   "M5B", "M5N", "M5V", "M6A", "M6B", "M6E", "M6H",
   "M6K", "M6L", "M6M", "M6N", "M8V", "M9A", "M9B",
   "M9C", "M9L", "M9M", "M9N", "M9P", "M9R", "M9V",
   "M9W", "N5H"]

/-- JS `Array.prototype.map` over a fallible element computation: the
first element whose computation crashes (is `none`) crashes the whole
map. -/
def mapMo {α β : Type} (f : α → Option β) : List α → Option (List β)
  | [] => some []
  | x :: xs =>
    match f x with
    | none => none
    | some y =>
      match mapMo f xs with
      | none => none
      | some ys => some (y :: ys)

/-- The urban-detail unwrapping: `rest.join(' ')` matched against the
anchored pattern `\(([^)]*)\)` - if the whole joined string is one
outer parenthesis pair (no closing parenthesis inside), keep only the
trimmed inner text. -/
def unwrapParens (detail : List Char) : List Char :=
  match detail with
  | '(' :: rest =>
    if rest.getLast? = some ')' ∧ ')' ∉ rest.dropLast then trimL rest.dropLast
    else '(' :: rest
  | _ => detail

/-- The body of the per-cell arrow function of `fsaScrapeFrom`, on the
cell's normalized lines `[fsa, name, ...rest]`.  An empty cell leaves
`fsa` JS `undefined` and `fsa.charAt(1)` throws, modelled `none`; a
missing `name` is tolerated (stored `undefined`).  The second
character digit `0` selects the rural shape, whose `rest` lines are
parsed as LDU entries (a line without a colon throws, `none`);
otherwise the urban shape joins `rest` into the optional `detail`. -/
def cellRecord (lines : List String) : Option FsaRecord :=
  match lines with
  | [] => none
  | fsa :: rest0 =>
    let name := rest0.head?
    let rest := rest0.tail
    let province := fsaProvince fsa
    let hotspot := HOTSPOT_FSAS.contains fsa
    if fsa.data[1]? = some '0' then
      (mapMo (fun l => parseLduLine l) rest).map (fun ldus =>
        ⟨fsa, FsaType.rural, province, hotspot, name, none, some ldus⟩)
    else
      let detail0 := unwrapParens (List.intercalate [' '] (rest.map String.data))
      some ⟨fsa, FsaType.urban, province, hotspot, name,
        if detail0.isEmpty then none else some (String.mk detail0), none⟩

/-- Lexicographic less-or-equal on character lists: the string order
JS uses to compare the FSA codes in the sort comparator. -/
def charListLe : List Char → List Char → Bool
  | [], _ => true
  | _ :: _, [] => false
  | c :: cs, d :: ds => if c = d then charListLe cs ds else decide (c < d)

/-- Stable insertion of a record into a list sorted ascending by FSA
code: the new record goes before the first strictly greater one and
after already-present equal ones. -/
def insertByFsa (x : FsaRecord) : List FsaRecord → List FsaRecord
  | [] => [x]
  | y :: ys =>
    if charListLe x.fsa.data y.fsa.data then x :: y :: ys
    else y :: insertByFsa x ys

/-- The `.sort((a, b) => (a.fsa === b.fsa ? 0 : a.fsa > b.fsa ? 1 : -1))`
call: a stable ascending sort by FSA code (JS `Array.prototype.sort`
is stable; a stable sort by a total preorder has a unique result, here
realized by insertion sort). -/
def sortByFsa (l : List FsaRecord) : List FsaRecord :=
  l.foldr insertByFsa []

/-- `fsaScrapeFrom` on the list of located data cells (the DOM cell
location itself - rural table before urban table, or first table - is
outside this embedding): normalize each cell with `dataLines`, build
its record, drop records whose name is an unused sentinel
(`undefined` names are kept, as in JS), and stably sort ascending by
FSA code. -/
def fsaScrapeFromCells (cells : List String) : Option (List FsaRecord) :=
  match mapMo (fun c => cellRecord (dataLines c)) cells with
  | none => none
  | some recs =>
    some (sortByFsa (recs.filter (fun f =>
      !(match f.name with
        | some n => UNUSED_FSA_NAMES.contains n
        | none => false))))

/-- `splitP` always yields at least one piece. -/
theorem splitP_ne_nil (p : Char → Bool) (l : List Char) : splitP p l ≠ [] := by
  cases l with
  | nil => simp [splitP]
  | cons c t =>
    simp only [splitP]
    split
    · simp
    · split <;> simp

/-- A list containing a separator splits into at least two pieces. -/
theorem splitP_two_parts (p : Char → Bool) :
    ∀ l : List Char, (∃ c ∈ l, p c = true) →
      ∃ s s2 ss, splitP p l = s :: s2 :: ss := by
  intro l
  induction l with
  | nil =>
    rintro ⟨c, hc, _⟩
    cases hc
  | cons c t ih =>
    rintro ⟨d, hd, hp⟩
    by_cases hc : p c = true
    · rcases hsp : splitP p t with _ | ⟨s, ss⟩
      · exact absurd hsp (splitP_ne_nil p t)
      · exact ⟨[], s, ss, by simp [splitP, hc, hsp]⟩
    · have hcf : p c = false := by
        revert hc
        cases p c <;> simp
      have hd' : d ∈ t := by
        rcases List.mem_cons.mp hd with rfl | h
        · exact absurd hp hc
        · exact h
      obtain ⟨s, s2, ss, hsp⟩ := ih ⟨d, hd', hp⟩
      exact ⟨c :: s, s2, ss, by simp [splitP, hcf, hsp]⟩

/-- The rural line parse succeeds exactly when the line has a colon
(`parts[1]` exists). -/
theorem parseLduLineL_isSome (l : List Char) :
    (parseLduLineL l).isSome ↔ ':' ∈ l := by
  constructor
  · intro h
    by_contra hmem
    have hsp : splitP (fun c => c == ':') l = [l] :=
      splitP_no_sep _ l
        (fun c hc => beq_eq_false_iff_ne.mpr (fun heq => hmem (heq ▸ hc)))
    unfold parseLduLineL at h
    rw [hsp] at h
    simp at h
  · intro hmem
    obtain ⟨s, s2, ss, hsp⟩ :=
      splitP_two_parts (fun c => c == ':') l ⟨':', hmem, by decide⟩
    rw [parseLduLineL_parts l s s2 ss hsp]
    split <;> simp

/-- The fallible map succeeds exactly when every element computation
succeeds. -/
theorem mapMo_isSome {α β : Type} (f : α → Option β) :
    ∀ xs : List α, (mapMo f xs).isSome ↔ ∀ x ∈ xs, (f x).isSome := by
  intro xs
  induction xs with
  | nil => simp [mapMo]
  | cons x t ih =>
    simp only [mapMo]
    rcases hf : f x with _ | y
    · constructor
      · intro h
        simp at h
      · intro h
        have := h x (List.mem_cons_self _ _)
        rw [hf] at this
        simp at this
    · rcases hm : mapMo f t with _ | ys
      · constructor
        · intro h
          simp at h
        · intro h
          have := ih.mpr (fun z hz => h z (List.mem_cons_of_mem _ hz))
          rw [hm] at this
          simp at this
      · constructor
        · intro _ z hz
          rcases List.mem_cons.mp hz with rfl | hz'
          · rw [hf]; simp
          · exact (ih.mp (by rw [hm]; simp)) z hz'
        · intro _
          simp

/-- C10 counterexample: with the primary data table present,
`fsaScrapeFrom` does crash (propagates a `TypeError`, modelled `none`)
on a data cell whose normalized line sequence is empty, and on a rural
cell containing a payload line without a colon. -/
theorem c10_counterexample :
    fsaScrapeFromCells [""] = none ∧
    fsaScrapeFromCells ["A0A<br>Area<br>Remote Hamlet"] = none := by
  constructor
  · decide
  · decide

/-- C10 (amended): the extractor tolerates missing optional content -
an urban cell without detail lines yields an absent `detail`, a cell
with only an FSA line yields an absent `name`, a rural cell without
LDU lines yields an empty `ldus` list - but it is not total: a cell
with no lines at all fails (JS `TypeError` on
`undefined.charAt`), and a rural cell fails exactly when one of its
payload lines has no colon (`parts[1].trim()` on `undefined`).  The
per-cell extraction succeeds precisely on non-empty line sequences
whose rural payload lines all contain a colon. -/
theorem c10_amended_graceful :
    (cellRecord ([] : List String) = none) ∧
    (∀ fsa rest0, ((cellRecord (fsa :: rest0)).isSome ↔
      (fsa.data[1]? = some '0' → ∀ l ∈ rest0.tail, ':' ∈ l.data))) ∧
    fsaScrapeFromCells ["A1B<br>Townsville"] =
      some [⟨"A1B", FsaType.urban, some "NL", false, some "Townsville",
        none, none⟩] ∧
    fsaScrapeFromCells ["A1B"] =
      some [⟨"A1B", FsaType.urban, some "NL", false, none, none, none⟩] ∧
    fsaScrapeFromCells ["A0A<br>Area"] =
      some [⟨"A0A", FsaType.rural, some "NL", false, some "Area", none,
        some []⟩] ∧
    fsaScrapeFromCells [""] = none ∧
    fsaScrapeFromCells ["A0A<br>Area<br>Remote Hamlet"] = none := by
  refine ⟨rfl, ?_, by decide, by decide, by decide, by decide, by decide⟩
  intro fsa rest0
  have hunf : cellRecord (fsa :: rest0) =
      (if fsa.data[1]? = some '0' then
        (mapMo (fun l => parseLduLine l) rest0.tail).map (fun ldus =>
          ⟨fsa, FsaType.rural, fsaProvince fsa,
            HOTSPOT_FSAS.contains fsa, rest0.head?, none, some ldus⟩)
      else some ⟨fsa, FsaType.urban, fsaProvince fsa,
        HOTSPOT_FSAS.contains fsa, rest0.head?,
        (if (unwrapParens (List.intercalate [' ']
              (rest0.tail.map String.data))).isEmpty
          then none
          else some (String.mk (unwrapParens (List.intercalate [' ']
            (rest0.tail.map String.data))))),
        none⟩) := rfl
  rw [hunf]
  by_cases hz : fsa.data[1]? = some '0'
  · rw [if_pos hz]
    rw [show ∀ x : Option (List LduEntry), ∀ g : List LduEntry → FsaRecord,
        (x.map g).isSome = x.isSome from fun x g => by cases x <;> rfl]
    rw [mapMo_isSome (fun l => parseLduLine l) rest0.tail]
    constructor
    · intro h _ l hl
      exact (parseLduLineL_isSome l.data).mp (h l hl)
    · intro h l hl
      exact (parseLduLineL_isSome l.data).mpr (h hz l hl)
  · rw [if_neg hz]
    simp [hz]

/-- Witness for C10 (amended): a rural cell whose payload lines all
have colons succeeds. -/
theorem c10_amended_graceful_witness :
    (cellRecord ["A0A", "N", "A1A: Ham"]).isSome :=
  (c10_amended_graceful.2.1 "A0A" ["N", "A1A: Ham"]).mpr (fun _ => by decide)

/-! ## MPP name derivation (`edMppEnrich`, postal.js lines 385-403) -/

/-- `const names = mppName.split(' ')` — split on single space
characters; empty segments are kept, as JS does. -/
def mppNameParts (mppName : String) : List (List Char) :=
  splitP (fun c => c == ' ') mppName.data

/-- The whitespace-separated tokens of a string (the reading used by
the claim): maximal runs of non-whitespace characters. -/
def wsTokens (l : List Char) : List (List Char) :=
  (splitP Char.isWhitespace l).filter (fun t => !t.isEmpty)

/-- `mppDesignation`: `id === 30 ? 'Premier' : names[0] === 'Hon.'
? 'Minister' : 'MPP'` (the premier's district id is hard-coded). -/
def mppDesignation (id : Nat) (mppName : String) : String :=
  if id = 30 then "Premier"
  else if (mppNameParts mppName).head? = some "Hon.".data then "Minister"
  else "MPP"

/-- `mppFirstName`: `names[0]` for a plain MPP, else `names[1]`
(`undefined`, i.e. `none`, when that index does not exist). -/
def mppFirstName (id : Nat) (mppName : String) : Option String :=
  if mppDesignation id mppName = "MPP" then
    ((mppNameParts mppName)[0]?).map String.mk
  else ((mppNameParts mppName)[1]?).map String.mk

/-- `mppLastName`: `names[names.length - 1]`, the last element of the
split (the split of any string is non-empty, so this is its last
piece). -/
def mppLastName (mppName : String) : Option String :=
  ((mppNameParts mppName).getLast?).map String.mk

/-- Splitting with pointwise-equal separator predicates agrees. -/
theorem splitP_congr (p q : Char → Bool) :
    ∀ l : List Char, (∀ c ∈ l, p c = q c) → splitP p l = splitP q l := by
  intro l
  induction l with
  | nil => intro _; rfl
  | cons c t ih =>
    intro h
    have hc := h c (List.mem_cons_self _ _)
    have ht := ih (fun x hx => h x (List.mem_cons_of_mem _ hx))
    simp only [splitP, ← hc, ht]

/-- C8 counterexample: for `mppName = "Jane Smith "` (trailing space)
the code's last name is the empty string — `split(' ')` keeps the
empty final segment — while the last whitespace-separated token of the
name is `Smith`, so `mppLastName` is not always the last
whitespace-separated token. -/
theorem c8_counterexample :
    mppLastName "Jane Smith " = some "" ∧
    (wsTokens ("Jane Smith ").data).getLast? = some ("Smith".data) ∧
    mppLastName "Jane Smith " ≠ some "Smith" := by
  refine ⟨by decide, by decide, by decide⟩

/-- C8 (amended): District Enrichment tokenizes `mppName` by splitting
on single space characters (`split(' ')`), not on general whitespace.
For names whose only whitespace is single spaces with no leading,
trailing or doubled spaces — so that the space-split segments are
exactly the whitespace-separated tokens — the claim holds:
`mppDesignation` is `Premier` exactly for the hard-coded district id
30, `Minister` when the first token is `Hon.`, else `MPP`;
`mppFirstName` is the second token when an honorific/Premier
designation consumed the first, else the first; `mppLastName` is the
last token.  In particular `Hon. Jane Q. Smith` (non-Premier district)
gives designation `Minister`, first name `Jane`, last name `Smith`. -/
theorem c8_amended_name_derivation (id : Nat) (s : String)
    (hsp : ∀ c ∈ s.data, c.isWhitespace = true → c = ' ')
    (hne : ∀ t ∈ mppNameParts s, t ≠ []) :
    ((mppDesignation id s = "Premier") ↔ id = 30) ∧
    (id ≠ 30 → ((mppDesignation id s = "Minister") ↔
      (wsTokens s.data).head? = some "Hon.".data)) ∧
    (id ≠ 30 → (wsTokens s.data).head? ≠ some "Hon.".data →
      mppDesignation id s = "MPP") ∧
    (mppDesignation id s = "MPP" →
      mppFirstName id s = ((wsTokens s.data)[0]?).map String.mk) ∧
    (mppDesignation id s ≠ "MPP" →
      mppFirstName id s = ((wsTokens s.data)[1]?).map String.mk) ∧
    (mppLastName s = ((wsTokens s.data).getLast?).map String.mk) ∧
    (mppDesignation 5 "Hon. Jane Q. Smith" = "Minister" ∧
      mppFirstName 5 "Hon. Jane Q. Smith" = some "Jane" ∧
      mppLastName "Hon. Jane Q. Smith" = some "Smith") := by
  have hkey : wsTokens s.data = mppNameParts s := by
    unfold wsTokens mppNameParts
    have hcong : splitP Char.isWhitespace s.data
        = splitP (fun c => c == ' ') s.data := by
      apply splitP_congr
      intro c hc
      by_cases hw : c.isWhitespace = true
      · have hceq := hsp c hc hw
        subst hceq
        decide
      · have hBw : c.isWhitespace = false := by
          revert hw
          cases c.isWhitespace <;> simp
        have hcs : (c == ' ') = false := by
          apply beq_eq_false_iff_ne.mpr
          intro hEq
          rw [hEq] at hBw
          exact absurd hBw (by decide)
        rw [hBw, hcs]
    rw [hcong]
    apply List.filter_eq_self.mpr
    intro t ht
    have hnonempty := hne t ht
    rcases t with _ | ⟨a, t'⟩
    · exact absurd rfl hnonempty
    · rfl
  refine ⟨?_, ?_, ?_, ?_, ?_, ?_, ⟨by decide, by decide, by decide⟩⟩
  · constructor
    · intro h
      by_contra h30
      unfold mppDesignation at h
      rw [if_neg h30] at h
      by_cases hh : (mppNameParts s).head? = some "Hon.".data
      · rw [if_pos hh] at h
        exact absurd h (by decide)
      · rw [if_neg hh] at h
        exact absurd h (by decide)
    · intro h30
      unfold mppDesignation
      rw [if_pos h30]
  · intro h30
    unfold mppDesignation
    rw [if_neg h30, hkey]
    by_cases hh : (mppNameParts s).head? = some "Hon.".data
    · rw [if_pos hh]
      simp [hh]
    · rw [if_neg hh]
      constructor
      · intro h
        exact absurd h (by decide)
      · intro h
        exact absurd h hh
  · intro h30 hh
    rw [hkey] at hh
    unfold mppDesignation
    rw [if_neg h30, if_neg hh]
  · intro h
    unfold mppFirstName
    rw [if_pos h, hkey]
  · intro h
    unfold mppFirstName
    rw [if_neg h, hkey]
  · unfold mppLastName
    rw [hkey]

/-- Witness for C8 (amended) at a well-formed concrete name. -/
theorem c8_amended_name_derivation_witness :
    mppLastName "Jane Roe" =
      ((wsTokens ("Jane Roe").data).getLast?).map String.mk :=
  (c8_amended_name_derivation 5 "Jane Roe"
    (by decide) (by decide)).2.2.2.2.2.1
